import Mathlib

/-!
Verification of the Falabella offer-scanner (src/main.py) against its
natural-language specification.

The Python source is shallowly embedded below.  Pure string/number
functions are translated directly; machine floats are modelled as exact
rationals (ℚ); Python's `re` searches are translated to explicit
leftmost scans over character lists; the network / file-system
boundary of `main` is modelled by explicit input records (the list of
candidate URLs each category fetch produced, the fetched page content
per URL, and whether each outbound delivery succeeds).
-/

namespace Falabella

/-! ## Numeric normalizer: `_to_float_price` (src/main.py lines 151-178)

Python regex `(\d[\d\.,]+)` matches, at the leftmost possible
position, a digit followed by one or more characters from
digits/dot/comma (greedy, hence the maximal such run).  A position
with a digit matches only if at least one run character follows. -/

def isRunChar (c : Char) : Bool := c.isDigit || c = '.' || c = ','

def headIsRun : List Char → Bool
  | [] => false
  | c :: _ => isRunChar c

/-- Leftmost match of `(\d[\d\.,]+)` : the first digit position with a
following run character yields the digit plus the maximal run. -/
def findRun : List Char → Option (List Char)
  | [] => none
  | c :: rest =>
      if c.isDigit && headIsRun rest then some (c :: rest.takeWhile isRunChar)
      else findRun rest

/-- Decimal value of a digit string, as Python `int`/`float` read it. -/
def digitsVal (ds : List Char) : ℕ := ds.foldl (fun a c => 10 * a + (c.toNat - 48)) 0

/-- Python `float()` on the strings reachable here (digits and dots):
an optional integer part, an optional single dot, an optional
fractional part, with at least one digit present.  The value
`intpart + fracpart / 10 ^ |fracpart|` is written with `mkRat` so that
it evaluates inside the kernel (the field operations of `ℚ` are
irreducible); `parsePyFloat_frac_eq` below restates it with `+` and `/`. -/
def parsePyFloat (cs : List Char) : Option ℚ :=
  let ip := cs.takeWhile (fun c => c ≠ '.')
  match cs.dropWhile (fun c => c ≠ '.') with
  | [] => if ip ≠ [] ∧ ip.all Char.isDigit then some ((digitsVal ip : ℚ)) else none
  | _ :: fp =>
      if (ip ≠ [] ∨ fp ≠ []) ∧ ip.all Char.isDigit ∧ fp.all Char.isDigit then
        some (mkRat (digitsVal ip * 10 ^ fp.length + digitsVal fp) (10 ^ fp.length))
      else none

/-- Python `str.replace("..", ".")`: non-overlapping, left to right. -/
def pyReplaceDD : List Char → List Char
  | '.' :: '.' :: rest => '.' :: pyReplaceDD rest
  | c :: rest => c :: pyReplaceDD rest
  | [] => []

/-- Index of the first occurrence of `c` (length of the list when absent). -/
def idxOfFirst (c : Char) : List Char → ℕ
  | [] => 0
  | x :: xs => if x = c then 0 else idxOfFirst c xs + 1

/-- Python `num.rfind(",") > num.rfind(".")`, given both occur:
in the reversed run, the comma appears strictly before the dot. -/
def lastSepIsComma (num : List Char) : Bool :=
  idxOfFirst ',' num.reverse < idxOfFirst '.' num.reverse

/-- `_to_float_price` from src/main.py.  (`s.strip()` only trims outer
whitespace, which is never part of a matched run, so it does not
affect the result and is not re-modelled.) -/
def _to_float_price (s : String) : Option ℚ :=
  match findRun s.toList with
  | none => none
  | some num =>
      let hasC := num.any (fun c => c = ',')
      let hasD := num.any (fun c => c = '.')
      let num2 :=
        if hasC && hasD then
          if lastSepIsComma num then
            (num.filter (fun c => c ≠ '.')).map (fun c => if c = ',' then '.' else c)
          else
            num.filter (fun c => c ≠ ',')
        else
          if hasC && num.count ',' == 1 &&
              ((num.reverse.takeWhile (fun c => c ≠ ',')).length == 1 ||
               (num.reverse.takeWhile (fun c => c ≠ ',')).length == 2) then
            (num.filter (fun c => c ≠ '.')).map (fun c => if c = ',' then '.' else c)
          else
            pyReplaceDD (num.filter (fun c => c ≠ ','))
      parsePyFloat num2

/-! ## Price extraction: `extract_prices` (src/main.py lines 242-283)

`extract_prices` first collects candidate price *strings* with four
`re.findall`/`re.search` scans over the page markup: the values of the
JSON-style current-price keys (`bestPrice`, `internetPrice`,
`salePrice`, `currentPrice`, `price`), the values of the
reference-price keys (`originalPrice`, `listPrice`, `normalPrice`,
`oldPrice`, `strikePrice`), the `itemprop="price"` content attribute,
and the `S/`-prefixed inline tokens.  A `Markup` value records the
outcome of those four scans; everything the function then does with
the collected strings is embedded literally. -/

structure Markup where
  nowStrs : List String
  beforeStrs : List String
  itemprop : Option String
  solesStrs : List String
deriving DecidableEq

/-- `val = _to_float_price(m); if val: pool.append(val)` applied to each
matched string: parse failures and falsy `0.0` are dropped. -/
def priceCandidates (strs : List String) : List ℚ :=
  (strs.filterMap _to_float_price).filter (fun v => v ≠ 0)

/-- Python `min` over a nonempty list (`none` on an empty pool, where
the source never calls it). -/
def listMin : List ℚ → Option ℚ
  | [] => none
  | x :: xs =>
      some (match listMin xs with
            | none => x
            | some y => if x ≤ y then x else y)

/-- Python `max` over a nonempty list. -/
def listMax : List ℚ → Option ℚ
  | [] => none
  | x :: xs =>
      some (match listMax xs with
            | none => x
            | some y => if x ≤ y then y else x)

/-- The current-price pool: key-scan candidates plus the
`itemprop="price"` candidate, in source order. -/
def nowPool (m : Markup) : List ℚ :=
  priceCandidates m.nowStrs ++
    (match m.itemprop with
     | none => []
     | some s =>
         match _to_float_price s with
         | none => []
         | some v => if v ≠ 0 then [v] else [])

/-- The `S/` fallback (lines 271-275): only when the current-price pool
is empty and soles tokens exist, `uniq = sorted(set(soles))` pushes
`uniq[0]` (the minimum) into the now-pool and, when at least two
distinct values exist (`min ≠ max`), `uniq[-1]` (the maximum) into the
before-pool. -/
def finalPools (m : Markup) : List ℚ × List ℚ :=
  let cn := nowPool m
  let cb := priceCandidates m.beforeStrs
  let soles := priceCandidates m.solesStrs
  if cn = [] ∧ soles ≠ [] then
    match listMin soles, listMax soles with
    | some lo, some hi => ([lo], cb ++ (if lo ≠ hi then [hi] else []))
    | _, _ => (cn, cb)
  else (cn, cb)

/-- Lines 277-283: `now = min(pool)`, `before = max(pool)`, and the
discard step `if now and before and before <= now: before = None`
(`and` is Python truthiness: a price equal to `0.0` is falsy). -/
def extract_prices (m : Markup) : Option ℚ × Option ℚ :=
  let pools := finalPools m
  let now := listMin pools.1
  let before := listMax pools.2
  match now, before with
  | some n, some b => if n ≠ 0 ∧ b ≠ 0 ∧ b ≤ n then (some n, none) else (some n, some b)
  | _, _ => (now, before)

/-! ## Discount computation: `compute_discount` (src/main.py lines 286-292)

`if not now or not before or before <= 0: return None` — `not x` is
Python falsiness, so a present price equal to `0.0` also yields `None`.
Python's float `round` is modelled as rational rounding (`round` on ℚ);
exact-tie behaviour of binary floats is outside the model. -/

def compute_discount (now before : Option ℚ) : Option ℤ :=
  match now, before with
  | some n, some b =>
      if n = 0 ∨ b ≤ 0 then none
      else
        if round ((1 - n / b) * 100) < 0 then none
        else some (round ((1 - n / b) * 100))
  | _, _ => none

/-! ## Direct discount markers: `extract_discount_from_html`
(src/main.py lines 214-239)

Three `re.search` patterns tried in order: `-\s*(\d{1,3})\s*%`, then
`(\d{1,3})\s*%\s*OFF` (ignorecase), then
`(\d{1,3})\s*%\s*(?:DSCTO|DESCUENTO)` (ignorecase).  The
`int(...)`-conversion can never fail on a 1-3 digit group, so the
`except` arms are dead.  `\d{1,3}` directly followed by `\s*%` can
only match an entire maximal digit run of length 1-3: any shorter
match leaves a digit where `%` (or whitespace) must follow, so all
backtracking alternatives fail together. -/

def isPySpace (c : Char) : Bool :=
  c = ' ' || c = '\t' || c = '\n' || c = '\r' || c = '\x0b' || c = '\x0c'

def skipPySpaces (cs : List Char) : List Char := cs.dropWhile isPySpace

/-- Case-insensitive literal prefix test (`re.IGNORECASE`). -/
def startsWithCI : List Char → List Char → Bool
  | [], _ => true
  | _ :: _, [] => false
  | p :: ps, c :: cs => (p.toUpper = c.toUpper) && startsWithCI ps cs

/-- `(\d{1,3})\s*%` followed by `cont`, anchored at `cs`. -/
def matchPctTail (cont : List Char → Bool) (cs : List Char) : Option ℕ :=
  let run := cs.takeWhile Char.isDigit
  if 1 ≤ run.length ∧ run.length ≤ 3 then
    match skipPySpaces (cs.dropWhile Char.isDigit) with
    | '%' :: r2 => if cont r2 then some (digitsVal run) else none
    | _ => none
  else none

/-- Leftmost match of `-\s*(\d{1,3})\s*%`. -/
def searchMinusPct : List Char → Option ℕ
  | [] => none
  | c :: rest =>
      if c = '-' then
        match matchPctTail (fun _ => true) (skipPySpaces rest) with
        | some n => some n
        | none => searchMinusPct rest
      else searchMinusPct rest

/-- Leftmost match of `(\d{1,3})\s*%` followed by `cont`. -/
def searchDigitsPct (cont : List Char → Bool) : List Char → Option ℕ
  | [] => none
  | c :: rest =>
      if c.isDigit then
        match matchPctTail cont (c :: rest) with
        | some n => some n
        | none => searchDigitsPct cont rest
      else searchDigitsPct cont rest

def contOFF (r : List Char) : Bool := startsWithCI ['O', 'F', 'F'] (skipPySpaces r)

def contDSCTO (r : List Char) : Bool :=
  startsWithCI ['D', 'S', 'C', 'T', 'O'] (skipPySpaces r) ||
  startsWithCI ['D', 'E', 'S', 'C', 'U', 'E', 'N', 'T', 'O'] (skipPySpaces r)

def extract_discount_from_html (s : String) : Option ℤ :=
  match searchMinusPct s.toList with
  | some n => some (n : ℤ)
  | none =>
      match searchDigitsPct contOFF s.toList with
      | some n => some (n : ℤ)
      | none =>
          match searchDigitsPct contDSCTO s.toList with
          | some n => some (n : ℤ)
          | none => none

/-! ## Product resolution: the pure core of `fetch_product`
(src/main.py lines 295-310)

A fetched page is modelled by the outcome of the price scans
(`Markup`), the raw markup string used by the marker search, and the
result of `extract_title` (a pure regex plumbing step whose output is
carried as a field).  The network call, `looks_blocked` and the raised
exceptions are modelled at the orchestrator level as a failed fetch. -/

structure Product where
  url : String
  title : String
  price_now : Option ℚ
  price_before : Option ℚ
  discount_pct : Option ℤ
deriving DecidableEq

structure PageContent where
  markup : Markup
  html : String
  title : String
deriving DecidableEq

def product_of_page (u : String) (pc : PageContent) : Product :=
  let prices := extract_prices pc.markup
  let disc :=
    match compute_discount prices.1 prices.2 with
    | some d => some d
    | none => extract_discount_from_html pc.html
  { url := u, title := pc.title, price_now := prices.1, price_before := prices.2,
    discount_pct := disc }

/-! ## Scan orchestrator: `main` (src/main.py lines 371-471)

The environment of a run is a `MainInput`: what each configured
category fetch produced (`none` models a raised/caught category
failure), what fetching each candidate URL yields, and whether each
outbound Telegram call succeeds.  `fetch u = .fail b` models a raised
per-candidate exception (`b` = its message mentions bloqueo/captcha);
`.page pc ok` models a successful fetch whose later notification
delivery would succeed iff `ok`.  Timestamps are abstracted to `0`.
`RESET_STATE` is modelled off (the loaded `sent` is the initial map).
An uncaught exception escaping `main` is recorded as `raised = true`;
`messages` lists the successfully delivered Telegram messages in
order; `persisted` is `some` of the final `sent` mapping exactly when
`save_state` ran. -/

structure SentRec where
  ts : ℕ
  discount : ℤ
  title : String
deriving DecidableEq

inductive Msg where
  | offer (url : String)
  | emptyReport
  | summary (checked found sentNew blocked : ℕ)
deriving DecidableEq

inductive FetchOutcome where
  | fail (isBlock : Bool)
  | page (pc : PageContent) (deliverOk : Bool)
deriving DecidableEq

structure MainInput where
  catResults : List (Option (List String))
  fetch : String → FetchOutcome
  emptyOk : Bool
  summaryOk : Bool

structure LoopState where
  sent : List (String × SentRec)
  messages : List Msg
  checked : ℕ
  found : ℕ
  sentNew : ℕ
  blocked : ℕ
deriving DecidableEq

structure MainResult where
  persisted : Option (List (String × SentRec))
  messages : List Msg
  raised : Bool
  checked : ℕ
  found : ℕ
  sentNew : ℕ
  blocked : ℕ
deriving DecidableEq

/-- One iteration of the per-candidate loop (lines 423-448).  The
whole body runs under `try`: a fetch failure, and equally a failed
`telegram_send` for the offer, lands in the `except` arm which logs
and moves on.  On a failed delivery the offer is neither counted in
`total_sent` nor recorded in `sent`. -/
def processCandidate (minDisc : ℤ) (st : LoopState) (u : String) (fo : FetchOutcome) :
    LoopState :=
  let st1 := { st with checked := st.checked + 1 }
  match fo with
  | .fail isBlock => if isBlock then { st1 with blocked := st1.blocked + 1 } else st1
  | .page pc deliverOk =>
      let p := product_of_page u pc
      match p.discount_pct with
      | none => st1
      | some d =>
          if d < minDisc then st1
          else
            let st2 := { st1 with found := st1.found + 1 }
            if st2.sent.any (fun e => e.1 = u) then st2
            else if deliverOk then
              { st2 with
                messages := st2.messages ++ [Msg.offer u],
                sentNew := st2.sentNew + 1,
                sent := st2.sent ++ [(u, ⟨0, d, p.title⟩)] }
            else st2

/-- Global first-seen dedupe of the accumulated candidate URLs
(lines 409-414). -/
def dedupeFirst : List String → List String → List String
  | _, [] => []
  | seen, u :: rest =>
      if u ∈ seen then dedupeFirst seen rest
      else u :: dedupeFirst (u :: seen) rest

/-- `all_candidate_urls` after the per-category loop: categories that
raised contribute nothing. -/
def allCandidates (inp : MainInput) : List String :=
  (inp.catResults.filterMap id).flatten

/-- The per-candidate loop of `main` (lines 418-448), folded over the
deduplicated candidate list starting from the loaded state. -/
def scanFold (minDisc : ℤ) (initSent : List (String × SentRec)) (inp : MainInput) :
    LoopState :=
  (dedupeFirst [] (allCandidates inp)).foldl
    (fun st u => processCandidate minDisc st u (inp.fetch u))
    ⟨initSent, [], 0, 0, 0, 0⟩

/-- The body of `main` after `load_state` (lines 383-471).  With zero
candidate URLs the function sends the warning message and returns
before `save_state`; otherwise it runs the loop, persists the state,
and sends the summary.  Only these two final `telegram_send` calls sit
outside any `try`, so only their failures escape `main`. -/
def main_scan (minDisc : ℤ) (initSent : List (String × SentRec)) (inp : MainInput) :
    MainResult :=
  if allCandidates inp = [] then
    if inp.emptyOk then
      { persisted := none, messages := [Msg.emptyReport], raised := false,
        checked := 0, found := 0, sentNew := 0, blocked := 0 }
    else
      { persisted := none, messages := [], raised := true,
        checked := 0, found := 0, sentNew := 0, blocked := 0 }
  else
    let fin := scanFold minDisc initSent inp
    if inp.summaryOk then
      { persisted := some fin.sent,
        messages := fin.messages ++ [Msg.summary fin.checked fin.found fin.sentNew fin.blocked],
        raised := false,
        checked := fin.checked, found := fin.found, sentNew := fin.sentNew,
        blocked := fin.blocked }
    else
      { persisted := some fin.sent, messages := fin.messages, raised := true,
        checked := fin.checked, found := fin.found, sentNew := fin.sentNew,
        blocked := fin.blocked }

/-- A page whose only extractable datum is a "-70%" marker. -/
def pc70 : PageContent := ⟨⟨[], [], none, []⟩, "-70%", "t"⟩

/-! ## Auxiliary definitions used by the theorems -/

/-- Python `sent[I]` / `I in sent_set` on the association-list model of
the `sent` dict. -/
def lookupKey (k : String) : List (String × SentRec) → Option SentRec
  | [] => none
  | e :: rest => if e.1 = k then some e.2 else lookupKey k rest

/-- A family of pairwise-distinct URLs. -/
def c5url (i : ℕ) : String := String.mk (List.replicate i 'a')

/-- A run offering `N + 1` distinct candidate URLs, each resolving to a
fresh qualifying 70%-off page with successful delivery. -/
def c5Input (N : ℕ) : MainInput :=
  ⟨[some ((List.range (N + 1)).map c5url)], fun _ => .page pc70 true, true, true⟩

/-- A loaded `sent` mapping holding 3050 distinct entries. -/
def bigSent : List (String × SentRec) :=
  (List.range 3050).map (fun i => (c5url i, (⟨0, 70, "t"⟩ : SentRec)))

/-- A run whose single candidate fetch raises: the loop touches nothing
and the state is persisted as loaded. -/
def oneFailInput : MainInput := ⟨[some ["u"]], fun _ => .fail false, true, true⟩

/-! ## Helper lemmas -/

theorem parsePyFloat_nonneg (cs : List Char) (v : ℚ) (h : parsePyFloat cs = some v) :
    0 ≤ v := by
  simp only [parsePyFloat] at h
  split at h
  · split at h
    · rw [Option.some.injEq] at h
      exact h ▸ Nat.cast_nonneg _
    · exact absurd h (by simp)
  · split at h
    · rw [Option.some.injEq] at h
      rw [← h, Rat.mkRat_eq_div]
      positivity
    · exact absurd h (by simp)

theorem tofloat_nonneg (s : String) (v : ℚ) (h : _to_float_price s = some v) : 0 ≤ v := by
  unfold _to_float_price at h
  rcases hfr : findRun s.toList with _ | num <;> rw [hfr] at h
  · exact absurd h (by simp)
  · exact parsePyFloat_nonneg _ _ h

theorem priceCandidates_pos (l : List String) (v : ℚ) (h : v ∈ priceCandidates l) :
    0 < v := by
  unfold priceCandidates at h
  rw [List.mem_filter] at h
  obtain ⟨hmem, hne⟩ := h
  rw [List.mem_filterMap] at hmem
  obtain ⟨s, -, hs⟩ := hmem
  have h0 : 0 ≤ v := tofloat_nonneg s v hs
  have hne' : v ≠ 0 := by simpa using hne
  exact lt_of_le_of_ne h0 (Ne.symm hne')

theorem nowPool_pos (m : Markup) (v : ℚ) (h : v ∈ nowPool m) : 0 < v := by
  unfold nowPool at h
  rw [List.mem_append] at h
  rcases h with h | h
  · exact priceCandidates_pos _ _ h
  · rcases hit : m.itemprop with _ | s <;> rw [hit] at h <;> dsimp only at h
    · simp at h
    · rcases hv : _to_float_price s with _ | w <;> rw [hv] at h <;> dsimp only at h
      · simp at h
      · have hvw : v = w ∧ w ≠ 0 := by
          split at h
          · exact ⟨List.mem_singleton.mp h, by assumption⟩
          · simp at h
        obtain ⟨rfl, hw⟩ := hvw
        exact lt_of_le_of_ne (tofloat_nonneg s v hv) (Ne.symm hw)

theorem listMin_mem (l : List ℚ) (a : ℚ) (h : listMin l = some a) : a ∈ l := by
  induction l generalizing a with
  | nil => simp [listMin] at h
  | cons x xs ih =>
      rw [listMin, Option.some.injEq] at h
      rcases hm : listMin xs with _ | y <;> rw [hm] at h <;> dsimp only at h
      · exact h ▸ List.mem_cons_self x xs
      · by_cases hxy : x ≤ y
        · rw [if_pos hxy] at h
          exact h ▸ List.mem_cons_self x xs
        · rw [if_neg hxy] at h
          subst h
          exact List.mem_cons_of_mem x (ih _ hm)

theorem listMin_le (l : List ℚ) (a : ℚ) (h : listMin l = some a) : ∀ x ∈ l, a ≤ x := by
  induction l generalizing a with
  | nil => simp [listMin] at h
  | cons x xs ih =>
      intro z hz
      rw [listMin, Option.some.injEq] at h
      rcases hm : listMin xs with _ | y <;> rw [hm] at h <;> dsimp only at h
      · subst h
        rcases List.mem_cons.mp hz with rfl | hz'
        · exact le_refl _
        · cases xs with
          | nil => simp at hz'
          | cons w ws => rw [listMin] at hm; exact absurd hm (by simp)
      · subst h
        rcases List.mem_cons.mp hz with rfl | hz'
        · by_cases hxy : z ≤ y
          · rw [if_pos hxy]
          · rw [if_neg hxy]
            exact le_of_not_le hxy
        · have hy := ih y hm z hz'
          by_cases hxy : x ≤ y
          · rw [if_pos hxy]
            exact le_trans hxy hy
          · rw [if_neg hxy]
            exact hy

theorem listMax_mem (l : List ℚ) (a : ℚ) (h : listMax l = some a) : a ∈ l := by
  induction l generalizing a with
  | nil => simp [listMax] at h
  | cons x xs ih =>
      rw [listMax, Option.some.injEq] at h
      rcases hm : listMax xs with _ | y <;> rw [hm] at h <;> dsimp only at h
      · exact h ▸ List.mem_cons_self x xs
      · by_cases hxy : x ≤ y
        · rw [if_pos hxy] at h
          subst h
          exact List.mem_cons_of_mem x (ih _ hm)
        · rw [if_neg hxy] at h
          exact h ▸ List.mem_cons_self x xs

theorem listMax_ge (l : List ℚ) (a : ℚ) (h : listMax l = some a) : ∀ x ∈ l, x ≤ a := by
  induction l generalizing a with
  | nil => simp [listMax] at h
  | cons x xs ih =>
      intro z hz
      rw [listMax, Option.some.injEq] at h
      rcases hm : listMax xs with _ | y <;> rw [hm] at h <;> dsimp only at h
      · subst h
        rcases List.mem_cons.mp hz with rfl | hz'
        · exact le_refl _
        · cases xs with
          | nil => simp at hz'
          | cons w ws => rw [listMax] at hm; exact absurd hm (by simp)
      · subst h
        rcases List.mem_cons.mp hz with rfl | hz'
        · by_cases hxy : z ≤ y
          · rw [if_pos hxy]
            exact hxy
          · rw [if_neg hxy]
        · have hy := ih y hm z hz'
          by_cases hxy : x ≤ y
          · rw [if_pos hxy]
            exact hy
          · rw [if_neg hxy]
            exact le_trans hy (le_of_not_le hxy)

theorem finalPools_cases (m : Markup) :
    finalPools m = (nowPool m, priceCandidates m.beforeStrs) ∨
    (∃ lo hi, listMin (priceCandidates m.solesStrs) = some lo ∧
       listMax (priceCandidates m.solesStrs) = some hi ∧
       finalPools m =
         ([lo], priceCandidates m.beforeStrs ++ (if lo ≠ hi then [hi] else []))) := by
  simp only [finalPools]
  by_cases hc : nowPool m = [] ∧ priceCandidates m.solesStrs ≠ []
  · rw [if_pos hc]
    rcases hlo : listMin (priceCandidates m.solesStrs) with _ | lo
    · exact Or.inl rfl
    · rcases hhi : listMax (priceCandidates m.solesStrs) with _ | hi
      · exact Or.inl rfl
      · exact Or.inr ⟨lo, hi, rfl, rfl, rfl⟩
  · rw [if_neg hc]
    exact Or.inl rfl

theorem finalPools_pos (m : Markup) :
    (∀ v ∈ (finalPools m).1, 0 < v) ∧ (∀ v ∈ (finalPools m).2, 0 < v) := by
  rcases finalPools_cases m with h | ⟨lo, hi, hlo, hhi, h⟩ <;> rw [h]
  · exact ⟨fun v hv => nowPool_pos m v hv, fun v hv => priceCandidates_pos _ _ hv⟩
  · constructor
    · intro v hv
      rw [List.mem_singleton] at hv
      exact hv ▸ priceCandidates_pos _ _ (listMin_mem _ _ hlo)
    · intro v hv
      rw [List.mem_append] at hv
      rcases hv with hv | hv
      · exact priceCandidates_pos _ _ hv
      · split at hv
        · rw [List.mem_singleton] at hv
          exact hv ▸ priceCandidates_pos _ _ (listMax_mem _ _ hhi)
        · simp at hv

theorem digit_toNat_le (c : Char) (h : c.isDigit = true) : c.toNat - 48 ≤ 9 := by
  simp [Char.isDigit] at h
  obtain ⟨-, h2⟩ := h
  have h3 : c.val.toNat ≤ ('9').val.toNat := h2
  exact Nat.sub_le_of_le_add (by simpa using h3)

theorem digitsVal_aux (ds : List Char) (h : ∀ c ∈ ds, c.isDigit = true) :
    ∀ a : ℕ, ds.foldl (fun a c => 10 * a + (c.toNat - 48)) a < (a + 1) * 10 ^ ds.length := by
  induction ds with
  | nil =>
      intro a
      simp only [List.foldl_nil, List.length_nil, pow_zero, mul_one]
      exact Nat.lt_succ_self a
  | cons c cs ih =>
      intro a
      have hc := digit_toNat_le c (h c (List.mem_cons_self c cs))
      have hrec := ih (fun x hx => h x (List.mem_cons_of_mem c hx)) (10 * a + (c.toNat - 48))
      calc (c :: cs).foldl (fun a c => 10 * a + (c.toNat - 48)) a
            = cs.foldl (fun a c => 10 * a + (c.toNat - 48)) (10 * a + (c.toNat - 48)) := rfl
        _ < (10 * a + (c.toNat - 48) + 1) * 10 ^ cs.length := hrec
        _ ≤ ((a + 1) * 10) * 10 ^ cs.length := by
              have : 10 * a + (c.toNat - 48) + 1 ≤ (a + 1) * 10 := by omega
              exact Nat.mul_le_mul_right _ this
        _ = (a + 1) * 10 ^ (c :: cs).length := by
              rw [List.length_cons, pow_succ]
              ring

theorem digitsVal_lt (ds : List Char) (h : ∀ c ∈ ds, c.isDigit = true) :
    digitsVal ds < 10 ^ ds.length := by
  have := digitsVal_aux ds h 0
  simpa [digitsVal] using this

theorem matchPctTail_lt (cont : List Char → Bool) (cs : List Char) (n : ℕ)
    (h : matchPctTail cont cs = some n) : n < 1000 := by
  simp only [matchPctTail] at h
  by_cases hlen : 1 ≤ (cs.takeWhile Char.isDigit).length ∧
      (cs.takeWhile Char.isDigit).length ≤ 3
  · rw [if_pos hlen] at h
    split at h
    · split at h
      · rw [Option.some.injEq] at h
        subst h
        have hd : ∀ c ∈ cs.takeWhile Char.isDigit, c.isDigit = true :=
          fun c hc => List.mem_takeWhile_imp hc
        calc digitsVal (cs.takeWhile Char.isDigit)
              < 10 ^ (cs.takeWhile Char.isDigit).length := digitsVal_lt _ hd
          _ ≤ 10 ^ 3 := Nat.pow_le_pow_right (by omega) hlen.2
          _ = 1000 := by norm_num
      · exact absurd h (by simp)
    · exact absurd h (by simp)
  · rw [if_neg hlen] at h
    exact absurd h (by simp)

theorem searchMinusPct_lt (l : List Char) (n : ℕ) (h : searchMinusPct l = some n) :
    n < 1000 := by
  induction l with
  | nil => simp [searchMinusPct] at h
  | cons c rest ih =>
      rw [searchMinusPct] at h
      split at h
      · rcases hm : matchPctTail (fun _ => true) (skipPySpaces rest) with _ | k <;>
          rw [hm] at h <;> dsimp only at h
        · exact ih h
        · rw [Option.some.injEq] at h
          exact h ▸ matchPctTail_lt _ _ _ hm
      · exact ih h

theorem searchDigitsPct_lt (cont : List Char → Bool) (l : List Char) (n : ℕ)
    (h : searchDigitsPct cont l = some n) : n < 1000 := by
  induction l with
  | nil => simp [searchDigitsPct] at h
  | cons c rest ih =>
      rw [searchDigitsPct] at h
      split at h
      · rcases hm : matchPctTail cont (c :: rest) with _ | k <;>
          rw [hm] at h <;> dsimp only at h
        · exact ih h
        · rw [Option.some.injEq] at h
          exact h ▸ matchPctTail_lt _ _ _ hm
      · exact ih h

theorem lookupKey_any (k : String) (l : List (String × SentRec)) (v : SentRec)
    (h : lookupKey k l = some v) : l.any (fun e => e.1 = k) = true := by
  induction l with
  | nil => simp [lookupKey] at h
  | cons e rest ih =>
      rw [lookupKey] at h
      by_cases he : e.1 = k
      · simp [he]
      · rw [if_neg he] at h
        simp [ih h]

theorem lookupKey_append (k : String) (l1 l2 : List (String × SentRec)) (v : SentRec)
    (h : lookupKey k l1 = some v) : lookupKey k (l1 ++ l2) = some v := by
  induction l1 with
  | nil => simp [lookupKey] at h
  | cons e rest ih =>
      rw [lookupKey] at h
      rw [List.cons_append, lookupKey]
      by_cases he : e.1 = k
      · rwa [if_pos he] at h ⊢
      · rw [if_neg he] at h ⊢
        exact ih h

/-- Exhaustive description of one loop iteration: either it leaves
`sent`, `messages` and `total_sent` untouched, or the candidate was a
fresh qualifying offer with successful delivery and all three grow by
exactly that offer. -/
theorem processCandidate_cases (minD : ℤ) (st : LoopState) (u : String)
    (fo : FetchOutcome) :
    ((processCandidate minD st u fo).sent = st.sent ∧
     (processCandidate minD st u fo).messages = st.messages ∧
     (processCandidate minD st u fo).sentNew = st.sentNew) ∨
    (∃ pc d, fo = .page pc true ∧
       (product_of_page u pc).discount_pct = some d ∧ ¬ d < minD ∧
       st.sent.any (fun e => e.1 = u) = false ∧
       (processCandidate minD st u fo).sent =
         st.sent ++ [(u, ⟨0, d, (product_of_page u pc).title⟩)] ∧
       (processCandidate minD st u fo).messages = st.messages ++ [Msg.offer u] ∧
       (processCandidate minD st u fo).sentNew = st.sentNew + 1) := by
  cases fo with
  | fail b =>
      left
      simp only [processCandidate]
      split <;> exact ⟨rfl, rfl, rfl⟩
  | page pc ok =>
      simp only [processCandidate]
      rcases hd : (product_of_page u pc).discount_pct with _ | d <;> dsimp only
      · exact Or.inl ⟨rfl, rfl, rfl⟩
      · by_cases hlt : d < minD
        · rw [if_pos hlt]
          exact Or.inl ⟨rfl, rfl, rfl⟩
        · rw [if_neg hlt]
          by_cases hmem : st.sent.any (fun e => e.1 = u) = true
          · rw [if_pos hmem]
            exact Or.inl ⟨rfl, rfl, rfl⟩
          · rw [if_neg hmem]
            cases ok with
            | false => exact Or.inl ⟨rfl, rfl, rfl⟩
            | true =>
                right
                exact ⟨pc, d, rfl, hd, hlt, Bool.eq_false_iff.mpr hmem, rfl, rfl, rfl⟩

/-- A fresh qualifying delivered candidate is recorded: its key is in
`sent` after its own iteration. -/
theorem step_self_keyIn (minD : ℤ) (st : LoopState) (u : String) (pc : PageContent)
    (d : ℤ) (hd : (product_of_page u pc).discount_pct = some d) (hq : ¬ d < minD) :
    ((processCandidate minD st u (.page pc true)).sent.any (fun e => e.1 = u)) = true := by
  simp only [processCandidate]
  rcases hd' : (product_of_page u pc).discount_pct with _ | d' <;> dsimp only
  · rw [hd] at hd'
    exact absurd hd' (by simp)
  · rw [hd, Option.some.injEq] at hd'
    subst hd'
    rw [if_neg hq]
    by_cases hmem : st.sent.any (fun e => e.1 = u) = true
    · rw [if_pos hmem]
      exact hmem
    · rw [if_neg hmem]
      simp

theorem foldl_sent_append (minD : ℤ) (f : String → FetchOutcome) (l : List String) :
    ∀ st : LoopState, ∃ t,
      (l.foldl (fun s u => processCandidate minD s u (f u)) st).sent = st.sent ++ t := by
  induction l with
  | nil => exact fun st => ⟨[], by simp⟩
  | cons u rest ih =>
      intro st
      rw [List.foldl_cons]
      obtain ⟨t1, ht1⟩ := ih (processCandidate minD st u (f u))
      rcases processCandidate_cases minD st u (f u) with ⟨hs, -, -⟩ |
        ⟨pc, d, -, -, -, -, hs, -, -⟩
      · exact ⟨t1, by rw [ht1, hs]⟩
      · exact ⟨[(u, ⟨0, d, (product_of_page u pc).title⟩)] ++ t1,
          by rw [ht1, hs, List.append_assoc]⟩

theorem foldl_keyIn_mono (minD : ℤ) (f : String → FetchOutcome) (l : List String)
    (st : LoopState) (u : String) (h : st.sent.any (fun e => e.1 = u) = true) :
    ((l.foldl (fun s x => processCandidate minD s x (f x)) st).sent.any
      (fun e => e.1 = u)) = true := by
  obtain ⟨t, ht⟩ := foldl_sent_append minD f l st
  rw [ht, List.any_append, h, Bool.true_or]

theorem foldl_keyIn (minD : ℤ) (f : String → FetchOutcome) (l : List String)
    (u : String) (pc : PageContent) (d : ℤ)
    (hf : f u = .page pc true)
    (hd : (product_of_page u pc).discount_pct = some d) (hq : ¬ d < minD) :
    ∀ st : LoopState, u ∈ l →
      ((l.foldl (fun s x => processCandidate minD s x (f x)) st).sent.any
        (fun e => e.1 = u)) = true := by
  induction l with
  | nil => intro st hu; simp at hu
  | cons x rest ih =>
      intro st hu
      rw [List.foldl_cons]
      rcases List.mem_cons.mp hu with rfl | hu'
      · have hstep : ((processCandidate minD st u (f u)).sent.any
            (fun e => e.1 = u)) = true := by
          rw [hf]
          exact step_self_keyIn minD st u pc d hd hq
        exact foldl_keyIn_mono minD f rest _ u hstep
      · exact ih _ hu'

/-- Invariant used for idempotence: an identity already recorded keeps
its record unchanged and is never the subject of an offer message. -/
theorem foldl_c1_invariant (minD : ℤ) (f : String → FetchOutcome) (l : List String)
    (I : String) (v : SentRec) :
    ∀ st : LoopState, lookupKey I st.sent = some v → Msg.offer I ∉ st.messages →
      lookupKey I (l.foldl (fun s u => processCandidate minD s u (f u)) st).sent = some v ∧
      Msg.offer I ∉ (l.foldl (fun s u => processCandidate minD s u (f u)) st).messages := by
  induction l with
  | nil => exact fun st h1 h2 => ⟨h1, h2⟩
  | cons u rest ih =>
      intro st h1 h2
      rw [List.foldl_cons]
      rcases processCandidate_cases minD st u (f u) with ⟨hs, hm, -⟩ |
        ⟨pc, d, -, -, -, hfresh, hs, hm, -⟩
      · exact ih _ (hs ▸ h1) (hm ▸ h2)
      · have huI : u ≠ I := by
          intro he
          rw [he] at hfresh
          rw [lookupKey_any I st.sent v h1] at hfresh
          simp at hfresh
        refine ih _ (hs ▸ lookupKey_append I st.sent _ v h1) ?_
        rw [hm]
        intro hc
        rcases List.mem_append.mp hc with hc | hc
        · exact h2 hc
        · rw [List.mem_singleton, Msg.offer.injEq] at hc
          exact huI hc.symm

/-- Every offer message delivered so far belongs to a recorded key. -/
theorem foldl_notified_recorded (minD : ℤ) (f : String → FetchOutcome) (l : List String) :
    ∀ st : LoopState,
      (∀ u, Msg.offer u ∈ st.messages → st.sent.any (fun e => e.1 = u) = true) →
      ∀ u, Msg.offer u ∈ (l.foldl (fun s x => processCandidate minD s x (f x)) st).messages →
        ((l.foldl (fun s x => processCandidate minD s x (f x)) st).sent.any
          (fun e => e.1 = u)) = true := by
  induction l with
  | nil => exact fun st h0 => h0
  | cons x rest ih =>
      intro st h0 u
      rw [List.foldl_cons]
      refine ih _ ?_ u
      intro w hw
      rcases processCandidate_cases minD st x (f x) with ⟨hs, hm, -⟩ |
        ⟨pc, d, -, -, -, -, hs, hm, -⟩
      · rw [hs]
        exact h0 w (hm ▸ hw)
      · rw [hm] at hw
        rw [hs, List.any_append]
        rcases List.mem_append.mp hw with hw | hw
        · rw [h0 w hw, Bool.true_or]
        · rw [List.mem_singleton, Msg.offer.injEq] at hw
          subst hw
          simp

theorem mem_dedupeFirst (u : String) (l : List String) :
    ∀ seen, u ∈ l → u ∈ seen ∨ u ∈ dedupeFirst seen l := by
  induction l with
  | nil => intro seen h; simp at h
  | cons x rest ih =>
      intro seen hu
      rw [dedupeFirst]
      by_cases hx : x ∈ seen
      · rw [if_pos hx]
        rcases List.mem_cons.mp hu with rfl | hu'
        · exact Or.inl hx
        · exact ih seen hu'
      · rw [if_neg hx]
        rcases List.mem_cons.mp hu with rfl | hu'
        · exact Or.inr (List.mem_cons_self _ _)
        · rcases ih (x :: seen) hu' with hs | hd
          · rcases List.mem_cons.mp hs with rfl | hs'
            · exact Or.inr (List.mem_cons_self _ _)
            · exact Or.inl hs'
          · exact Or.inr (List.mem_cons_of_mem _ hd)

theorem dedupeFirst_eq_self (l : List String) :
    ∀ seen, l.Nodup → (∀ u ∈ l, u ∉ seen) → dedupeFirst seen l = l := by
  induction l with
  | nil => intro seen _ _; rfl
  | cons x rest ih =>
      intro seen hnd hns
      rw [dedupeFirst, if_neg (hns x (List.mem_cons_self x rest))]
      rw [ih (x :: seen) (List.Nodup.of_cons hnd) ?_]
      intro u hu
      rw [List.mem_cons]
      rintro (rfl | hu')
      · exact (List.nodup_cons.mp hnd).1 hu
      · exact hns u (List.mem_cons_of_mem x hu) hu'

/-- A fresh qualifying delivered candidate advances the loop state by
exactly its own notification and record. -/
theorem step_fresh_eq (minD : ℤ) (st : LoopState) (u : String) (pc : PageContent)
    (d : ℤ) (hd : (product_of_page u pc).discount_pct = some d) (hq : ¬ d < minD)
    (hfresh : st.sent.any (fun e => e.1 = u) = false) :
    processCandidate minD st u (.page pc true) =
      { sent := st.sent ++ [(u, ⟨0, d, (product_of_page u pc).title⟩)],
        messages := st.messages ++ [Msg.offer u],
        checked := st.checked + 1, found := st.found + 1,
        sentNew := st.sentNew + 1, blocked := st.blocked } := by
  simp only [processCandidate]
  rcases hd' : (product_of_page u pc).discount_pct with _ | d' <;> dsimp only
  · rw [hd] at hd'
    exact absurd hd' (by simp)
  · rw [hd, Option.some.injEq] at hd'
    subst hd'
    rw [if_neg hq, if_neg (by simp [hfresh])]
    rfl

theorem foldl_count_fresh (minD : ℤ) (f : String → FetchOutcome) (l : List String) :
    ∀ st : LoopState, l.Nodup →
      (∀ u ∈ l, st.sent.any (fun e => e.1 = u) = false) →
      (∀ u ∈ l, ∃ pc d, f u = .page pc true ∧
          (product_of_page u pc).discount_pct = some d ∧ ¬ d < minD) →
      (l.foldl (fun s x => processCandidate minD s x (f x)) st).sentNew =
        st.sentNew + l.length := by
  induction l with
  | nil => intro st _ _ _; simp
  | cons u rest ih =>
      intro st hnd hfresh hq
      obtain ⟨pc, d, hf, hd, hlt⟩ := hq u (List.mem_cons_self u rest)
      rw [List.foldl_cons, hf, step_fresh_eq minD st u pc d hd hlt
        (hfresh u (List.mem_cons_self u rest))]
      rw [ih _ (List.Nodup.of_cons hnd) ?_ (fun w hw => hq w (List.mem_cons_of_mem u hw))]
      · simp only [List.length_cons]
        omega
      · intro w hw
        rw [List.any_append, hfresh w (List.mem_cons_of_mem u hw)]
        simp only [Bool.false_or]
        have hne : u ≠ w := fun he => (List.nodup_cons.mp hnd).1 (he ▸ hw)
        simp [hne]

/-- Field equations of a completed nonempty-candidate run. -/
theorem main_scan_fields (minD : ℤ) (init : List (String × SentRec)) (inp : MainInput)
    (h : allCandidates inp ≠ []) :
    (main_scan minD init inp).persisted = some (scanFold minD init inp).sent ∧
    (inp.summaryOk = true →
      (main_scan minD init inp).messages =
        (scanFold minD init inp).messages ++
          [Msg.summary (scanFold minD init inp).checked (scanFold minD init inp).found
            (scanFold minD init inp).sentNew (scanFold minD init inp).blocked]) ∧
    (inp.summaryOk = false →
      (main_scan minD init inp).messages = (scanFold minD init inp).messages) ∧
    (main_scan minD init inp).raised = !inp.summaryOk ∧
    (main_scan minD init inp).sentNew = (scanFold minD init inp).sentNew ∧
    (main_scan minD init inp).checked = (scanFold minD init inp).checked ∧
    (main_scan minD init inp).found = (scanFold minD init inp).found ∧
    (main_scan minD init inp).blocked = (scanFold minD init inp).blocked := by
  simp only [main_scan]
  rw [if_neg h]
  by_cases hs : inp.summaryOk = true
  · rw [if_pos hs]
    exact ⟨rfl, fun _ => rfl, fun hc => absurd hs (by simp [hc]), by simp [hs],
      rfl, rfl, rfl, rfl⟩
  · rw [if_neg hs]
    have hs' : inp.summaryOk = false := Bool.eq_false_iff.mpr hs
    exact ⟨rfl, fun hc => absurd hc hs, fun _ => rfl, by simp [hs'], rfl, rfl, rfl, rfl⟩

theorem main_scan_empty (minD : ℤ) (init : List (String × SentRec)) (inp : MainInput)
    (h : allCandidates inp = []) :
    main_scan minD init inp =
      if inp.emptyOk then ⟨none, [Msg.emptyReport], false, 0, 0, 0, 0⟩
      else ⟨none, [], true, 0, 0, 0, 0⟩ := by
  simp only [main_scan]
  rw [if_pos h]

/-- Claim C6, counterexample.  The claim says that whenever no
reference-price candidates exist but at least two distinct
current-price candidates were found, the largest becomes
`price_before` and the smallest `price_now`.  On a markup whose
current-price *keys* yield the two distinct candidates 100 and 40 and
whose reference keys yield nothing, the code returns
`(price_now = 40, price_before = none)`: the reinterpretation never
applies to the keyed current-price pool, only to the `S/` soles pool
(and only when the keyed pool is empty). -/
theorem C6_counterexample :
    extract_prices ⟨["100", "40"], [], none, []⟩ = (some 40, none) ∧
    extract_prices ⟨["100", "40"], [], none, []⟩ ≠ (some 40, some 100) := by
  constructor
  · decide
  · decide

/-- Claim C6, amended.  The price-pool fallback acts on the
currency-prefixed (`S/`) token pool, and only when the keyed
current-price pool (including the `itemprop` candidate) is empty: then
the smallest distinct soles value becomes `price_now` and, when at
least two distinct values exist, the largest becomes `price_before`
(here stated with no keyed reference-price candidates). -/
theorem C6_soles_fallback (m : Markup) (lo hi : ℚ)
    (hnow : nowPool m = [])
    (hbef : priceCandidates m.beforeStrs = [])
    (hlo : listMin (priceCandidates m.solesStrs) = some lo)
    (hhi : listMax (priceCandidates m.solesStrs) = some hi)
    (hne : lo ≠ hi) :
    extract_prices m = (some lo, some hi) := by
  have hsoles : priceCandidates m.solesStrs ≠ [] := by
    intro h0
    rw [h0] at hlo
    simp [listMin] at hlo
  have hfp : finalPools m = ([lo], [hi]) := by
    simp only [finalPools]
    rw [if_pos ⟨hnow, hsoles⟩, hlo, hhi]
    dsimp only
    rw [hbef, if_pos hne]
    rfl
  have hlop : 0 < lo := priceCandidates_pos _ _ (listMin_mem _ _ hlo)
  have hlohi : lo < hi :=
    lt_of_le_of_ne (listMin_le _ _ hlo hi (listMax_mem _ _ hhi)) hne
  simp only [extract_prices, hfp]
  rw [show listMin [lo] = some lo from rfl, show listMax [hi] = some hi from rfl]
  dsimp only
  rw [if_neg]
  rintro ⟨-, -, hle⟩
  exact absurd hle (not_le.mpr hlohi)

/-- Claim C6, witness for the amended theorem: a page exposing only the
soles tokens `S/ 40` and `S/ 100` resolves to
`price_now = 40, price_before = 100`. -/
theorem C6_witness :
    extract_prices ⟨[], [], none, ["40", "100"]⟩ = (some 40, some 100) :=
  C6_soles_fallback ⟨[], [], none, ["40", "100"]⟩ 40 100 (by decide) (by decide)
    (by decide) (by decide) (by norm_num)

/-- Claim C7, counterexample.  The claim quantifies over every pair of
present prices with `price_before > 0`; at `price_now = 0,
price_before = 100` the claimed formula gives
`round((1 - 0/100) × 100) = 100 ≥ 0`, yet the code returns `none`:
Python's `not now` truthiness check conflates a present price `0.0`
with an absent one. -/
theorem C7_counterexample :
    compute_discount (some 0) (some 100) = none ∧
    round ((1 - (0 : ℚ) / 100) * 100) = 100 := by
  constructor
  · simp [compute_discount]
  · norm_num [round_eq]

/-- Claim C7, amended.  For every pair of present prices with
`price_now ≠ 0` and `price_before > 0`, the price-derived discount is
`round((1 − price_now/price_before) × 100)` when that is non-negative
and `none` (not clamped) when negative; in particular 40/100 gives 60,
99/100 gives 1, and 110/100 gives `none`. -/
theorem C7_discount_arithmetic :
    (∀ n b : ℚ, n ≠ 0 → 0 < b →
        compute_discount (some n) (some b) =
          if round ((1 - n / b) * 100) < 0 then none
          else some (round ((1 - n / b) * 100))) ∧
    compute_discount (some 40) (some 100) = some 60 ∧
    compute_discount (some 99) (some 100) = some 1 ∧
    compute_discount (some 110) (some 100) = none := by
  have key : ∀ n b : ℚ, n ≠ 0 → 0 < b →
      compute_discount (some n) (some b) =
        if round ((1 - n / b) * 100) < 0 then none
        else some (round ((1 - n / b) * 100)) := by
    intro n b hn hb
    simp only [compute_discount]
    rw [if_neg]
    push_neg
    exact ⟨hn, hb⟩
  refine ⟨key, ?_, ?_, ?_⟩
  · rw [key 40 100 (by norm_num) (by norm_num)]
    norm_num [round_eq]
  · rw [key 99 100 (by norm_num) (by norm_num)]
    norm_num [round_eq]
  · rw [key 110 100 (by norm_num) (by norm_num)]
    norm_num [round_eq]

/-- Claim C7, witness: the amended formula applied at
`price_now = 40, price_before = 100`. -/
theorem C7_witness :
    compute_discount (some 40) (some 100) =
      if round ((1 - (40 : ℚ) / 100) * 100) < 0 then none
      else some (round ((1 - (40 : ℚ) / 100) * 100)) :=
  C7_discount_arithmetic.1 40 100 (by norm_num) (by norm_num)

/-- Claim C8, confirmed.  Whenever extraction resolves both prices, the
reference price strictly exceeds the current price: a candidate pair
with `price_before ≤ price_now` has its `price_before` discarded.  At
`price_now = 50, price_before = 40` the resolver returns
`(some 50, none)` and the discount from prices is unknown. -/
theorem C8_monotonic_invariant :
    (∀ (m : Markup) (n b : ℚ), extract_prices m = (some n, some b) → n < b) ∧
    extract_prices ⟨["50"], ["40"], none, []⟩ = (some 50, none) ∧
    compute_discount (some 50) none = none := by
  refine ⟨?_, by decide, by decide⟩
  intro m n b h
  simp only [extract_prices] at h
  rcases hn : listMin (finalPools m).1 with _ | n' <;> rw [hn] at h <;>
    rcases hb : listMax (finalPools m).2 with _ | b' <;> rw [hb] at h <;>
    dsimp only at h
  · simp at h
  · simp at h
  · simp at h
  · split at h
    · simp at h
    · rw [Prod.mk.injEq, Option.some.injEq, Option.some.injEq] at h
      obtain ⟨rfl, rfl⟩ := h
      have hpos := finalPools_pos m
      by_contra hnb
      rename_i hcond
      exact hcond ⟨ne_of_gt (hpos.1 _ (listMin_mem _ _ hn)),
        ne_of_gt (hpos.2 _ (listMax_mem _ _ hb)), le_of_not_lt hnb⟩

/-- Claim C8, witness: a markup with current-price candidate 40 and
reference candidate 100 resolves to both prices present, and the
invariant instance `40 < 100` follows from the theorem. -/
theorem C8_witness : (40 : ℚ) < 100 :=
  C8_monotonic_invariant.1 ⟨["40"], ["100"], none, []⟩ 40 100 (by decide)

/-- Claim C10, counterexample.  The three marker regexes perform no
range validation: `"-150%"` yields 150, which is outside `[0, 100)`
and still becomes the offer's `discount_pct` through the
price-less fallback in `fetch_product`. -/
theorem C10_counterexample :
    extract_discount_from_html "-150%" = some 150 ∧
    ¬ ((150 : ℤ) < 100) ∧
    (product_of_page "u" ⟨⟨[], [], none, []⟩, "-150%", "t"⟩).discount_pct = some 150 := by
  refine ⟨by decide, by decide, by decide⟩

/-- Claim C10, amended.  The textual markers are tried in the priority
order `-NN%`, then `NN% OFF`, then `NN% DSCTO/DESCUENTO`, and the
first 1-3 digit match is returned with no validation against
`[0, 100)`: every returned value lies in `[0, 1000)` (the range of a
1-3 digit integer) and out-of-range values such as 150 do become
`discount_pct`. -/
theorem C10_marker_range :
    (∀ (s : String) (n : ℤ), extract_discount_from_html s = some n → 0 ≤ n ∧ n < 1000) ∧
    extract_discount_from_html "30% OFF y -20%" = some 20 ∧
    extract_discount_from_html "30% off" = some 30 ∧
    extract_discount_from_html "15% DSCTO" = some 15 ∧
    (product_of_page "u" ⟨⟨[], [], none, []⟩, "-150%", "t"⟩).discount_pct = some 150 := by
  refine ⟨?_, by decide, by decide, by decide, by decide⟩
  intro s n h
  unfold extract_discount_from_html at h
  rcases h1 : searchMinusPct s.toList with _ | k <;> rw [h1] at h <;> dsimp only at h
  · rcases h2 : searchDigitsPct contOFF s.toList with _ | k <;> rw [h2] at h <;>
      dsimp only at h
    · rcases h3 : searchDigitsPct contDSCTO s.toList with _ | k <;> rw [h3] at h <;>
        dsimp only at h
      · exact absurd h (by simp)
      · rw [Option.some.injEq] at h
        subst h
        exact ⟨Int.ofNat_nonneg k, by exact_mod_cast searchDigitsPct_lt _ _ _ h3⟩
    · rw [Option.some.injEq] at h
      subst h
      exact ⟨Int.ofNat_nonneg k, by exact_mod_cast searchDigitsPct_lt _ _ _ h2⟩
  · rw [Option.some.injEq] at h
    subst h
    exact ⟨Int.ofNat_nonneg k, by exact_mod_cast searchMinusPct_lt _ _ h1⟩

/-- Claim C10, witness: the bound applied to the concrete marker
`"-70%"`. -/
theorem C10_witness : (0 : ℤ) ≤ 70 ∧ (70 : ℤ) < 1000 :=
  C10_marker_range.1 "-70%" 70 (by decide)

theorem digit_ne_comma (c : Char) (h : c.isDigit = true) : ¬ c = ',' := by
  intro hc
  subst hc
  exact absurd h (by decide)

theorem digit_ne_dot (c : Char) (h : c.isDigit = true) : ¬ c = '.' := by
  intro hc
  subst hc
  exact absurd h (by decide)

theorem runChar_cases (x : Char) (hx : isRunChar x = true) :
    x.isDigit = true ∨ x = '.' ∨ x = ',' := by
  simp only [isRunChar, Bool.or_eq_true, decide_eq_true_eq] at hx
  tauto

theorem findRun_runChar (l : List Char) :
    ∀ num, findRun l = some num → ∀ c ∈ num, isRunChar c = true := by
  induction l with
  | nil => intro num h; simp [findRun] at h
  | cons c rest ih =>
      intro num h
      rw [findRun] at h
      split at h
      · rw [Option.some.injEq] at h
        subst h
        intro x hx
        rcases List.mem_cons.mp hx with rfl | hx'
        · rename_i hcond
          have hcd := (Bool.and_eq_true _ _).mp hcond
          simp [isRunChar, hcd.1]
        · exact List.mem_takeWhile_imp hx'
      · exact ih num h

theorem findRun_head_digit (l : List Char) :
    ∀ num, findRun l = some num → ∃ c cs, num = c :: cs ∧ c.isDigit = true := by
  induction l with
  | nil => intro num h; simp [findRun] at h
  | cons c rest ih =>
      intro num h
      rw [findRun] at h
      split at h
      · rw [Option.some.injEq] at h
        rename_i hcond
        exact ⟨c, rest.takeWhile isRunChar, h.symm, ((Bool.and_eq_true _ _).mp hcond).1⟩
      · exact ih num h

theorem findRun_none (l : List Char) (h : ∀ c ∈ l, c.isDigit = false) :
    findRun l = none := by
  induction l with
  | nil => rfl
  | cons c rest ih =>
      rw [findRun, if_neg (by rw [h c (List.mem_cons_self c rest)]; simp)]
      exact ih (fun x hx => h x (List.mem_cons_of_mem c hx))

theorem idxOfFirst_append (c : Char) (l1 l2 : List Char) (h : ∀ x ∈ l1, ¬ x = c) :
    idxOfFirst c (l1 ++ l2) = l1.length + idxOfFirst c l2 := by
  induction l1 with
  | nil => simp [idxOfFirst]
  | cons x xs ih =>
      rw [List.cons_append, idxOfFirst, if_neg (h x (List.mem_cons_self x xs)),
        ih (fun y hy => h y (List.mem_cons_of_mem x hy)), List.length_cons]
      omega

theorem takeWhile_all_append (p : Char → Bool) (l1 l2 : List Char)
    (h : ∀ x ∈ l1, p x = true) :
    (l1 ++ l2).takeWhile p = l1 ++ l2.takeWhile p := by
  induction l1 with
  | nil => rfl
  | cons x xs ih =>
      rw [List.cons_append, List.takeWhile_cons, h x (List.mem_cons_self x xs),
        ih (fun y hy => h y (List.mem_cons_of_mem x hy))]
      simp

theorem dropWhile_all_append (p : Char → Bool) (l1 l2 : List Char)
    (h : ∀ x ∈ l1, p x = true) :
    (l1 ++ l2).dropWhile p = l2.dropWhile p := by
  induction l1 with
  | nil => rfl
  | cons x xs ih =>
      rw [List.cons_append, List.dropWhile_cons, h x (List.mem_cons_self x xs)]
      exact ih (fun y hy => h y (List.mem_cons_of_mem x hy))

/-- Python `float()` on a digit string, a single dot, and a digit tail:
the decimal reading claimed by the separator rule. -/
theorem parsePyFloat_split (d b : List Char) (hd : d ≠ [])
    (hdd : ∀ c ∈ d, c.isDigit = true) (hbd : ∀ c ∈ b, c.isDigit = true) :
    parsePyFloat (d ++ '.' :: b) =
      some ((digitsVal d : ℚ) + (digitsVal b : ℚ) / (10 : ℚ) ^ b.length) := by
  have hpd : ∀ x ∈ d, (fun c => decide (c ≠ '.')) x = true := by
    intro x hx
    simp only [decide_eq_true_eq]
    exact digit_ne_dot x (hdd x hx)
  have ht : (d ++ '.' :: b).takeWhile (fun c => c ≠ '.') = d := by
    rw [takeWhile_all_append _ _ _ hpd, List.takeWhile_cons]
    simp
  have hw : (d ++ '.' :: b).dropWhile (fun c => c ≠ '.') = '.' :: b := by
    rw [dropWhile_all_append _ _ _ hpd, List.dropWhile_cons]
    simp
  simp only [parsePyFloat]
  rw [hw]
  dsimp only
  rw [ht]
  rw [if_pos ⟨Or.inl hd, List.all_eq_true.mpr hdd, List.all_eq_true.mpr hbd⟩]
  rw [Option.some.injEq, Rat.mkRat_eq_div]
  push_cast
  have h10 : ((10 : ℚ) ^ b.length) ≠ 0 := by positivity
  field_simp

theorem c5url_injective : Function.Injective c5url := by
  intro i j h
  have h2 : List.replicate i 'a' = List.replicate j 'a' := congrArg String.data h
  have h3 := congrArg List.length h2
  simpa using h3

/-- Claim C1, confirmed.  An identity `I` already present in the loaded
`sent` mapping is never re-notified by a scan that rediscovers it with
a qualifying discount, and its stored record survives into the
persisted state unchanged; moreover every identity that *is* notified
in a run is recorded in the persisted state, so across consecutive
runs that persist and reload, notification happens at most once per
identity. -/
theorem C1_idempotent (minD : ℤ) (init : List (String × SentRec)) (inp : MainInput)
    (I : String) (v : SentRec)
    (hIv : lookupKey I init = some v)
    (hre : I ∈ allCandidates inp)
    (_hqual : ∃ pc ok d, inp.fetch I = .page pc ok ∧
        (product_of_page I pc).discount_pct = some d ∧ minD ≤ d) :
    Msg.offer I ∉ (main_scan minD init inp).messages ∧
    (∀ m, (main_scan minD init inp).persisted = some m → lookupKey I m = some v) ∧
    (∀ u m, Msg.offer u ∈ (main_scan minD init inp).messages →
        (main_scan minD init inp).persisted = some m →
        m.any (fun e => e.1 = u) = true) := by
  have hne : allCandidates inp ≠ [] := List.ne_nil_of_mem hre
  obtain ⟨hp, hmsT, hmsF, -, -, -, -, -⟩ := main_scan_fields minD init inp hne
  have hinv : lookupKey I (scanFold minD init inp).sent = some v ∧
      Msg.offer I ∉ (scanFold minD init inp).messages :=
    foldl_c1_invariant minD inp.fetch (dedupeFirst [] (allCandidates inp)) I v
      ⟨init, [], 0, 0, 0, 0⟩ hIv (by simp)
  have hrec : ∀ u, Msg.offer u ∈ (scanFold minD init inp).messages →
      ((scanFold minD init inp).sent.any (fun e => e.1 = u)) = true :=
    foldl_notified_recorded minD inp.fetch (dedupeFirst [] (allCandidates inp))
      ⟨init, [], 0, 0, 0, 0⟩ (by simp)
  have hmsg : ∀ u, Msg.offer u ∈ (main_scan minD init inp).messages →
      Msg.offer u ∈ (scanFold minD init inp).messages := by
    intro u hu
    by_cases hs : inp.summaryOk = true
    · rw [hmsT hs] at hu
      rcases List.mem_append.mp hu with hu | hu
      · exact hu
      · simp at hu
    · rw [hmsF (Bool.eq_false_iff.mpr hs)] at hu
      exact hu
  refine ⟨fun hc => hinv.2 (hmsg I hc), ?_, ?_⟩
  · intro m hm
    rw [hp, Option.some.injEq] at hm
    exact hm ▸ hinv.1
  · intro u m hu hm
    rw [hp, Option.some.injEq] at hm
    exact hm ▸ hrec u (hmsg u hu)

/-- Claim C1, witness: a run that rediscovers the already-recorded
identity `"u1"` with a qualifying 70% discount delivers no offer
message for it. -/
theorem C1_witness :
    Msg.offer "u1" ∉ (main_scan 50 [("u1", ⟨0, 70, "t"⟩)]
      ⟨[some ["u1"]], fun _ => .page pc70 true, true, true⟩).messages :=
  (C1_idempotent 50 [("u1", ⟨0, 70, "t"⟩)]
      ⟨[some ["u1"]], fun _ => .page pc70 true, true, true⟩ "u1" ⟨0, 70, "t"⟩
      (by decide) (by decide) ⟨pc70, true, 70, rfl, by decide, by decide⟩).1

/-- Claim C2, counterexample.  A completed run that discovered zero
candidate URLs (one category fetch raised, the other returned an empty
page) sends the explicit empty-result message but returns *before*
`save_state`: the state is not persisted, contradicting the claim that
every completed scan reaches PERSIST_STATE. -/
theorem C2_counterexample :
    (main_scan 50 [("x", ⟨0, 60, "s"⟩)]
        ⟨[none, some []], fun _ => .fail false, true, true⟩).persisted = none ∧
    (main_scan 50 [("x", ⟨0, 60, "s"⟩)]
        ⟨[none, some []], fun _ => .fail false, true, true⟩).messages =
      [Msg.emptyReport] := by
  exact ⟨by decide, by decide⟩

/-- Claim C2, amended.  A completed run always sends a message (the
summary when candidates existed, the explicit empty report when zero
candidates were discovered), but the state is persisted only when at
least one candidate URL was discovered; the zero-candidate branch
returns early without persisting. -/
theorem C2_summary_and_persist (minD : ℤ) (init : List (String × SentRec))
    (inp : MainInput) :
    (allCandidates inp = [] → inp.emptyOk = true →
        (main_scan minD init inp).persisted = none ∧
        (main_scan minD init inp).messages = [Msg.emptyReport] ∧
        (main_scan minD init inp).raised = false) ∧
    (allCandidates inp ≠ [] →
        ((main_scan minD init inp).persisted).isSome = true ∧
        (inp.summaryOk = true →
            (main_scan minD init inp).messages.getLast? =
              some (Msg.summary (main_scan minD init inp).checked
                (main_scan minD init inp).found (main_scan minD init inp).sentNew
                (main_scan minD init inp).blocked) ∧
            (main_scan minD init inp).raised = false)) := by
  constructor
  · intro h he
    rw [main_scan_empty minD init inp h, if_pos he]
    exact ⟨rfl, rfl, rfl⟩
  · intro h
    obtain ⟨hp, hmsT, -, hr, hsn, hc, hf, hb⟩ := main_scan_fields minD init inp h
    refine ⟨by rw [hp]; rfl, ?_⟩
    intro hs
    constructor
    · rw [hmsT hs, List.getLast?_concat, hc, hf, hsn, hb]
    · rw [hr, hs]
      rfl

/-- Claim C2, witness: the empty-candidate branch at a concrete input,
via the amended theorem. -/
theorem C2_witness :
    (main_scan 50 [("x", ⟨0, 60, "s"⟩)]
        ⟨[none, some []], fun _ => .fail false, true, true⟩).raised = false :=
  ((C2_summary_and_persist 50 [("x", ⟨0, 60, "s"⟩)]
      ⟨[none, some []], fun _ => .fail false, true, true⟩).1 (by decide) rfl).2.2

/-- Claim C3, counterexample.  `save_state` applies no size cap at all:
a loaded `sent` of 3050 entries is persisted with all 3050 entries,
so for every claimed cap N in [2000, 3000] the "exactly N retained"
property fails (3000 < 3050 entries survive). -/
theorem C3_counterexample :
    (main_scan 50 bigSent oneFailInput).persisted = some bigSent ∧
    3000 < bigSent.length := by
  constructor
  · have key : ∀ init : List (String × SentRec),
        (main_scan 50 init oneFailInput).persisted = some init := by
      intro init
      have h : allCandidates oneFailInput ≠ [] := by decide
      obtain ⟨hp, -, -, -, -, -, -, -⟩ := main_scan_fields 50 init oneFailInput h
      rw [hp]
      have hsent : (scanFold 50 init oneFailInput).sent = init := rfl
      rw [hsent]
    exact key bigSent
  · have hlen : bigSent.length = 3050 := by simp [bigSent]
    omega

/-- Claim C3, amended.  Persisting applies no eviction: every entry of
the loaded `sent` mapping survives, in place, at the front of the
persisted mapping (new entries are only appended), for every run that
reaches `save_state`. -/
theorem C3_no_eviction (minD : ℤ) (init : List (String × SentRec)) (inp : MainInput)
    (h : allCandidates inp ≠ []) :
    ((main_scan minD init inp).persisted).isSome = true ∧
    ∀ m, (main_scan minD init inp).persisted = some m → m.take init.length = init := by
  obtain ⟨hp, -, -, -, -, -, -, -⟩ := main_scan_fields minD init inp h
  refine ⟨by rw [hp]; rfl, ?_⟩
  intro m hm
  rw [hp, Option.some.injEq] at hm
  obtain ⟨t, ht⟩ := foldl_sent_append minD inp.fetch (dedupeFirst [] (allCandidates inp))
    ⟨init, [], 0, 0, 0, 0⟩
  have hsc : (scanFold minD init inp).sent = init ++ t := ht
  rw [← hm, hsc, List.take_left]

/-- Claim C3, witness: a run over one failing candidate persists the
loaded single-entry state. -/
theorem C3_witness :
    ((main_scan 50 [("a", ⟨0, 70, "t"⟩)] oneFailInput).persisted).isSome = true :=
  (C3_no_eviction 50 [("a", ⟨0, 70, "t"⟩)] oneFailInput (by decide)).1

/-- Claim C4, counterexample.  A run in which the delivery call for
offer "a" fails completes normally: the failure is caught by the same
per-candidate handler as a fetch failure, the scan goes on to notify
"b", persist, and send the summary, and nothing escapes `main`
(`raised = false`) — contradicting the claim that per-offer delivery
failure is surfaced to the top level. -/
theorem C4_counterexample :
    (main_scan 50 [] ⟨[some ["a", "b"]], fun u => .page pc70 (u = "b"), true, true⟩).raised
        = false ∧
    Msg.offer "a" ∉
      (main_scan 50 [] ⟨[some ["a", "b"]], fun u => .page pc70 (u = "b"), true, true⟩).messages ∧
    (main_scan 50 [] ⟨[some ["a", "b"]], fun u => .page pc70 (u = "b"), true, true⟩).persisted
        = some [("b", ⟨0, 70, "t"⟩)] ∧
    (main_scan 50 [] ⟨[some ["a", "b"]], fun u => .page pc70 (u = "b"), true, true⟩).messages
        = [Msg.offer "b", Msg.summary 2 2 1 0] := by
  exact ⟨by decide, by decide, by decide, by decide⟩

/-- Claim C4, amended.  A failed per-offer delivery is caught and
skipped exactly like a per-candidate fetch failure (it changes neither
`sent` nor the delivered messages nor `total_sent`, leaving the offer
to be re-attempted on a future run); the only deliveries whose failure
escapes `main` are the final empty-report and summary sends. -/
theorem C4_failure_contained :
    (∀ (minD : ℤ) (st : LoopState) (u : String) (pc : PageContent),
        (processCandidate minD st u (.page pc false)).sent = st.sent ∧
        (processCandidate minD st u (.page pc false)).messages = st.messages ∧
        (processCandidate minD st u (.page pc false)).sentNew = st.sentNew) ∧
    (∀ (minD : ℤ) (init : List (String × SentRec)) (inp : MainInput),
        (main_scan minD init inp).raised =
          (if allCandidates inp = [] then !inp.emptyOk else !inp.summaryOk)) := by
  constructor
  · intro minD st u pc
    rcases processCandidate_cases minD st u (.page pc false) with ⟨h1, h2, h3⟩ |
      ⟨pc', d, heq, -⟩
    · exact ⟨h1, h2, h3⟩
    · exact absurd heq (by simp)
  · intro minD init inp
    by_cases h : allCandidates inp = []
    · rw [main_scan_empty minD init inp h, if_pos h]
      by_cases he : inp.emptyOk = true
      · rw [if_pos he, he]
        rfl
      · rw [if_neg he, Bool.eq_false_iff.mpr he]
        rfl
    · rw [if_neg h]
      exact (main_scan_fields minD init inp h).2.2.2.1

/-- A run over N + 1 distinct fresh qualifying candidates notifies all
N + 1 of them: the notified count is unbounded over runs. -/
theorem c5Input_sentNew (N : ℕ) : (main_scan 50 [] (c5Input N)).sentNew = N + 1 := by
  have hall : allCandidates (c5Input N) = (List.range (N + 1)).map c5url := by
    simp [allCandidates, c5Input]
  have hlen : ((List.range (N + 1)).map c5url).length = N + 1 := by simp
  have hne : allCandidates (c5Input N) ≠ [] := by
    rw [hall]
    intro hnil
    rw [hnil] at hlen
    simp at hlen
  obtain ⟨-, -, -, -, hsn, -, -, -⟩ := main_scan_fields 50 [] (c5Input N) hne
  rw [hsn]
  have hnd : ((List.range (N + 1)).map c5url).Nodup :=
    List.Nodup.map c5url_injective (List.nodup_range _)
  have hded : dedupeFirst [] (allCandidates (c5Input N)) =
      (List.range (N + 1)).map c5url := by
    rw [hall]
    exact dedupeFirst_eq_self _ [] hnd (by simp)
  have hsf : scanFold 50 [] (c5Input N) =
      ((List.range (N + 1)).map c5url).foldl
        (fun st u => processCandidate 50 st u ((c5Input N).fetch u))
        ⟨[], [], 0, 0, 0, 0⟩ := by
    rw [scanFold, hded]
  rw [hsf, foldl_count_fresh 50 (c5Input N).fetch _ ⟨[], [], 0, 0, 0, 0⟩ hnd
    (fun u _ => rfl) (fun u _ => ⟨pc70, 70, rfl, rfl, by decide⟩), hlen]
  simp

/-- Claim C5, counterexample.  A single run over 1001 distinct fresh
qualifying candidates notifies all 1001 of them: no qualifying offer
is deferred, and 1001 exceeds every configured value in the program
(threshold 50, max products per category 200, max pages 6, timeout
25), so no configured per-run maximum bounds the number of
notifications. -/
theorem C5_counterexample :
    (main_scan 50 [] (c5Input 1000)).sentNew = 1001 :=
  c5Input_sentNew 1000

/-- Claim C5, amended.  No per-run notification cap exists: every
candidate whose fetch succeeds with a qualifying discount and whose
delivery succeeds is recorded in `sent` in that same run — no
qualifying offer is left un-recorded for reconsideration by a later
run. -/
theorem C5_every_delivered_recorded (minD : ℤ) (init : List (String × SentRec))
    (inp : MainInput) (u : String) (pc : PageContent) (d : ℤ)
    (hu : u ∈ allCandidates inp)
    (hf : inp.fetch u = .page pc true)
    (hd : (product_of_page u pc).discount_pct = some d)
    (hq : minD ≤ d) :
    ((main_scan minD init inp).persisted).isSome = true ∧
    ∀ m, (main_scan minD init inp).persisted = some m →
      m.any (fun e => e.1 = u) = true := by
  have hne : allCandidates inp ≠ [] := List.ne_nil_of_mem hu
  obtain ⟨hp, -, -, -, -, -, -, -⟩ := main_scan_fields minD init inp hne
  refine ⟨by rw [hp]; rfl, ?_⟩
  intro m hm
  rw [hp, Option.some.injEq] at hm
  have hud : u ∈ dedupeFirst [] (allCandidates inp) := by
    rcases mem_dedupeFirst u (allCandidates inp) [] hu with hc | hc
    · simp at hc
    · exact hc
  have hkey := foldl_keyIn minD inp.fetch (dedupeFirst [] (allCandidates inp)) u pc d
    hf hd (not_lt.mpr hq) ⟨init, [], 0, 0, 0, 0⟩ hud
  exact hm ▸ hkey

/-- Claim C5, witness: a delivered qualifying candidate is recorded in
the persisted state of its own run. -/
theorem C5_witness :
    ((main_scan 50 [] ⟨[some ["u1"]], fun _ => .page pc70 true, true, true⟩).persisted).isSome
      = true :=
  (C5_every_delivered_recorded 50 []
    ⟨[some ["u1"]], fun _ => .page pc70 true, true, true⟩ "u1" pc70 70
    (by decide) rfl (by decide) (by decide)).1

/-- Claim C9, counterexample.  The matched run of `"1,2.3,4"` contains
both separators and its later separator is the final comma, so the
claimed rule yields `123.4`; the code instead produces an unparseable
string — `replace(",", ".")` also converts the *earlier* comma into a
dot, giving `"1.23.4"`, which `float()` rejects — and returns none. -/
theorem C9_counterexample :
    _to_float_price "1,2.3,4" = none ∧
    _to_float_price "1,2.3,4" ≠ some (mkRat 1234 10) := by
  exact ⟨by decide, by decide⟩

/-- Claim C9, amended.  When the matched digit run contains both `,`
and `.` and the separator type occurring later occurs exactly once
(all characters after the last separator are digits and the later
type does not recur earlier in the run), that separator is treated as
the decimal point and the earlier ones are stripped as thousands
separators; consequently "1.234,56" and "1,234.56" both normalize to
1234.56, "1299" normalizes to 1299.0, and a digit-free string
normalizes to none without raising. -/
theorem C9_separator_rule :
    (∀ (s : String) (sep other : Char) (a b : List Char),
        ((sep = ',' ∧ other = '.') ∨ (sep = '.' ∧ other = ',')) →
        findRun s.toList = some (a ++ sep :: b) →
        other ∈ a → sep ∉ a → (∀ c ∈ b, c.isDigit = true) →
        _to_float_price s =
          some ((digitsVal (a.filter Char.isDigit) : ℚ) +
            (digitsVal b : ℚ) / (10 : ℚ) ^ b.length)) ∧
    _to_float_price "1.234,56" = some (mkRat 123456 100) ∧
    _to_float_price "1,234.56" = some (mkRat 123456 100) ∧
    _to_float_price "1299" = some 1299 ∧
    (∀ s : String, (∀ c ∈ s.toList, c.isDigit = false) → _to_float_price s = none) := by
  refine ⟨?_, by decide, by decide, by decide, ?_⟩
  · intro s sep other a b hsep hrun hoa hsa hb
    rcases hsep with ⟨rfl, rfl⟩ | ⟨rfl, rfl⟩
    · -- later separator is the comma
      have hrc : ∀ c ∈ (a ++ ',' :: b), isRunChar c = true := findRun_runChar _ _ hrun
      obtain ⟨c0, cs0, hnum, hc0⟩ := findRun_head_digit _ _ hrun
      have hd_ne : a.filter Char.isDigit ≠ [] := by
        rcases a with _ | ⟨ha, a'⟩
        · rw [List.nil_append] at hnum
          injection hnum with h1 h2
          rw [← h1] at hc0
          exact absurd hc0 (by decide)
        · rw [List.cons_append] at hnum
          injection hnum with h1 h2
          have hha : ha.isDigit = true := by rw [h1]; exact hc0
          exact List.ne_nil_of_mem
            (List.mem_filter.mpr ⟨List.mem_cons_self ha a', hha⟩)
      have hrev : (a ++ ',' :: b).reverse = b.reverse ++ ',' :: a.reverse := by
        rw [List.reverse_append, List.reverse_cons, List.append_assoc,
          List.singleton_append]
      have hnotC : ∀ x ∈ b.reverse, ¬ x = ',' :=
        fun x hx => digit_ne_comma x (hb x (List.mem_reverse.mp hx))
      have hnotD : ∀ x ∈ b.reverse, ¬ x = '.' :=
        fun x hx => digit_ne_dot x (hb x (List.mem_reverse.mp hx))
      have hlast : lastSepIsComma (a ++ ',' :: b) = true := by
        simp only [lastSepIsComma]
        have e1 : idxOfFirst ',' (',' :: a.reverse) = 0 := by
          rw [idxOfFirst, if_pos rfl]
        have e2 : idxOfFirst '.' (',' :: a.reverse) = idxOfFirst '.' a.reverse + 1 := by
          rw [idxOfFirst, if_neg (by decide)]
        rw [hrev, idxOfFirst_append ',' _ _ hnotC, idxOfFirst_append '.' _ _ hnotD,
          e1, e2]
        simp only [decide_eq_true_eq]
        omega
      simp only [_to_float_price]
      rw [hrun]
      dsimp only
      have hC : ((a ++ ',' :: b).any fun c => decide (c = ',')) = true :=
        List.any_eq_true.mpr
          ⟨',', List.mem_append_right _ (List.mem_cons_self _ _), by simp⟩
      have hD : ((a ++ ',' :: b).any fun c => decide (c = '.')) = true :=
        List.any_eq_true.mpr ⟨'.', List.mem_append_left _ hoa, by simp⟩
      have hcond : (((a ++ ',' :: b).any fun c => decide (c = ',')) &&
          ((a ++ ',' :: b).any fun c => decide (c = '.'))) = true := by
        rw [hC, hD]
        rfl
      rw [if_pos hcond, if_pos hlast]
      have hfa : List.filter (fun c => decide (c ≠ '.')) a = List.filter Char.isDigit a := by
        apply List.filter_congr
        intro x hx
        rcases runChar_cases x (hrc x (List.mem_append_left _ hx)) with hdig | rfl | rfl
        · simp [digit_ne_dot x hdig, hdig]
        · decide
        · exact absurd hx hsa
      have hfb : List.filter (fun c => decide (c ≠ '.')) (',' :: b) = ',' :: b := by
        apply List.filter_eq_self.mpr
        intro x hx
        rcases List.mem_cons.mp hx with rfl | hx'
        · decide
        · simp only [decide_eq_true_eq]
          exact digit_ne_dot x (hb x hx')
      have hma : List.map (fun c => if c = ',' then '.' else c)
          (List.filter Char.isDigit a) = List.filter Char.isDigit a := by
        conv_rhs => rw [← List.map_id (List.filter Char.isDigit a)]
        apply List.map_congr_left
        intro x hx
        rw [if_neg (digit_ne_comma x (List.mem_filter.mp hx).2)]
        rfl
      have hmb : List.map (fun c => if c = ',' then '.' else c) (',' :: b) = '.' :: b := by
        rw [List.map_cons, if_pos rfl]
        congr 1
        conv_rhs => rw [← List.map_id b]
        apply List.map_congr_left
        intro x hx
        rw [if_neg (digit_ne_comma x (hb x hx))]
        rfl
      rw [List.filter_append, hfa, hfb, List.map_append, hma, hmb]
      exact parsePyFloat_split _ _ hd_ne (fun c hc => (List.mem_filter.mp hc).2) hb
    · -- later separator is the dot
      have hrc : ∀ c ∈ (a ++ '.' :: b), isRunChar c = true := findRun_runChar _ _ hrun
      obtain ⟨c0, cs0, hnum, hc0⟩ := findRun_head_digit _ _ hrun
      have hd_ne : a.filter Char.isDigit ≠ [] := by
        rcases a with _ | ⟨ha, a'⟩
        · rw [List.nil_append] at hnum
          injection hnum with h1 h2
          rw [← h1] at hc0
          exact absurd hc0 (by decide)
        · rw [List.cons_append] at hnum
          injection hnum with h1 h2
          have hha : ha.isDigit = true := by rw [h1]; exact hc0
          exact List.ne_nil_of_mem
            (List.mem_filter.mpr ⟨List.mem_cons_self ha a', hha⟩)
      have hrev : (a ++ '.' :: b).reverse = b.reverse ++ '.' :: a.reverse := by
        rw [List.reverse_append, List.reverse_cons, List.append_assoc,
          List.singleton_append]
      have hnotC : ∀ x ∈ b.reverse, ¬ x = ',' :=
        fun x hx => digit_ne_comma x (hb x (List.mem_reverse.mp hx))
      have hnotD : ∀ x ∈ b.reverse, ¬ x = '.' :=
        fun x hx => digit_ne_dot x (hb x (List.mem_reverse.mp hx))
      have hlast : lastSepIsComma (a ++ '.' :: b) = false := by
        simp only [lastSepIsComma]
        have e1 : idxOfFirst ',' ('.' :: a.reverse) = idxOfFirst ',' a.reverse + 1 := by
          rw [idxOfFirst, if_neg (by decide)]
        have e2 : idxOfFirst '.' ('.' :: a.reverse) = 0 := by
          rw [idxOfFirst, if_pos rfl]
        rw [hrev, idxOfFirst_append ',' _ _ hnotC, idxOfFirst_append '.' _ _ hnotD,
          e1, e2]
        simp only [decide_eq_false_iff_not]
        omega
      simp only [_to_float_price]
      rw [hrun]
      dsimp only
      have hC : ((a ++ '.' :: b).any fun c => decide (c = ',')) = true :=
        List.any_eq_true.mpr ⟨',', List.mem_append_left _ hoa, by simp⟩
      have hD : ((a ++ '.' :: b).any fun c => decide (c = '.')) = true :=
        List.any_eq_true.mpr
          ⟨'.', List.mem_append_right _ (List.mem_cons_self _ _), by simp⟩
      have hcond : (((a ++ '.' :: b).any fun c => decide (c = ',')) &&
          ((a ++ '.' :: b).any fun c => decide (c = '.'))) = true := by
        rw [hC, hD]
        rfl
      rw [if_pos hcond, if_neg (by rw [hlast]; simp)]
      have hfa : List.filter (fun c => decide (c ≠ ',')) a = List.filter Char.isDigit a := by
        apply List.filter_congr
        intro x hx
        rcases runChar_cases x (hrc x (List.mem_append_left _ hx)) with hdig | rfl | rfl
        · simp [digit_ne_comma x hdig, hdig]
        · exact absurd hx hsa
        · decide
      have hfb : List.filter (fun c => decide (c ≠ ',')) ('.' :: b) = '.' :: b := by
        apply List.filter_eq_self.mpr
        intro x hx
        rcases List.mem_cons.mp hx with rfl | hx'
        · decide
        · simp only [decide_eq_true_eq]
          exact digit_ne_comma x (hb x hx')
      rw [List.filter_append, hfa, hfb]
      exact parsePyFloat_split _ _ hd_ne (fun c hc => (List.mem_filter.mp hc).2) hb
  · intro s h
    simp only [_to_float_price]
    rw [findRun_none s.toList h]

/-- Claim C9, witness: the separator rule applied to the concrete run
of `"1.234,56"`: integer part `1234` (thousands dot stripped), decimal
part `56`. -/
theorem C9_witness :
    _to_float_price "1.234,56" =
      some ((digitsVal (List.filter Char.isDigit ['1', '.', '2', '3', '4']) : ℚ) +
        (digitsVal ['5', '6'] : ℚ) / (10 : ℚ) ^ (['5', '6'] : List Char).length) :=
  C9_separator_rule.1 "1.234,56" ',' '.' ['1', '.', '2', '3', '4'] ['5', '6']
    (Or.inl ⟨rfl, rfl⟩) (by decide) (by decide) (by decide) (by decide)

end Falabella
